import Mathlib

/-!
Verification of the rpaint drawing application core.

This file gives a shallow embedding of the parts of the source that the
claims are about:

* an IEEE-754 binary32 model (F32) for the f32 scalars used in stroke
  points, widths and move deltas — finite values are kept as a canonical
  pair m, e with value m * 2 ^ e, rounding is round-to-nearest, ties to
  even, and positive and negative infinity and NaN are explicit
  constructors.  The sign of zero is collapsed into a single zero; no
  operation modelled here lets the sign of zero influence a result that
  the claims observe.
* the data model of src/rpaint/src/models.rs: Line, SerializableLine,
  PaintAction and the two From conversions (the codec).
* the Store and history engine of src/rpaint/src/app.rs: apply_action,
  execute, undo, redo, clear_all.  Rust Vec::insert panics when the index
  exceeds the length, and Vec indexing panics when out of bounds, so the
  operations that can panic are modelled as Option-valued; none is the
  panic.
* the broadcast path of src/rpaint/src/network.rs.
* dist_to_segment of src/rpaint/src/utils.rs.
-/

/-! # The binary32 model -/

/-- Bit length of a natural number computed with structural fuel.  The
fuel only bounds the recursion depth (one step per binary digit); 1000 is
far above the digit count of any integer the model can produce. -/
def bitlenF : Nat → Nat → Nat
  | 0, _ => 0
  | f + 1, n => if n = 0 then 0 else bitlenF f (n / 2) + 1

/-- Bit length: bitlen n = 0 for n = 0, otherwise the unique L with
2 ^ (L - 1) <= n < 2 ^ L. -/
def bitlen (n : Nat) : Nat := bitlenF 1000 n

/-- Floor of the integer square root, by fueled binary search on the
interval lo..hi (invariant: lo * lo <= n < hi * hi). -/
def isqrtF : Nat → Nat → Nat → Nat → Nat
  | 0, _, lo, _ => lo
  | f + 1, n, lo, hi =>
    if hi ≤ lo + 1 then lo
    else
      let mid := (lo + hi) / 2
      if mid * mid ≤ n then isqrtF f n mid hi else isqrtF f n lo mid

/-- Floor of the square root of a natural number. -/
def isqrt (n : Nat) : Nat := isqrtF 1000 n 0 (n + 2)

/-- IEEE-754 binary32 value.  A finite value num m e denotes m * 2 ^ e.
Canonical finite values (the only ones the operations below produce)
have m = 0 and e = 0, or 2 ^ 23 <= m.natAbs < 2 ^ 24 with e >= -149, or
e = -149 with 0 < m.natAbs < 2 ^ 23 (subnormals). -/
inductive F32 : Type where
  | num (m : Int) (e : Int)
  | posInf
  | negInf
  | nan
deriving DecidableEq, Repr

/-- 2 ^ k as an integer, through the kernel-friendly Nat power. -/
def twoPow (k : Nat) : Int := ((2 ^ k : Nat) : Int)

/-- Finish a rounding step: q is the magnitude already rounded onto the
grid with exponent g (possibly 2 ^ 24 after a carry); renormalise the
carry, detect overflow to infinity, and collapse a zero magnitude to the
single zero. -/
def mkF32 (neg : Bool) (q : Nat) (g : Int) : F32 :=
  if q = 0 then F32.num 0 0
  else
    let q' := if q = 2 ^ 24 then 2 ^ 23 else q
    let g' := if q = 2 ^ 24 then g + 1 else g
    if (bitlen q' : Int) - 1 + g' > 127 then
      if neg then F32.negInf else F32.posInf
    else F32.num (if neg then -(q' : Int) else (q' : Int)) g'

/-- Round the exact value ± n * 2 ^ e (n ≠ 0) to the nearest binary32,
ties to even. -/
def roundNat (neg : Bool) (n : Nat) (e : Int) : F32 :=
  let E : Int := (bitlen n : Int) - 1 + e
  let g : Int := max (-149) (E - 23)
  if e ≥ g then
    mkF32 neg (n * 2 ^ (e - g).toNat) g
  else
    let k := (g - e).toNat
    let q := n / 2 ^ k
    let r := n % 2 ^ k
    let half := 2 ^ (k - 1)
    let q' := if r > half ∨ (r = half ∧ q % 2 = 1) then q + 1 else q
    mkF32 neg q' g

/-- Round the exact dyadic value m * 2 ^ e to the nearest binary32. -/
def roundInt (m : Int) (e : Int) : F32 :=
  if m = 0 then F32.num 0 0 else roundNat (decide (m < 0)) m.natAbs e

namespace F32

/-- IEEE negation: flip the sign. -/
def neg : F32 → F32
  | num m e => num (-m) e
  | posInf => negInf
  | negInf => posInf
  | nan => nan

/-- IEEE addition with round to nearest, ties to even. -/
def add : F32 → F32 → F32
  | nan, _ => nan
  | _, nan => nan
  | posInf, negInf => nan
  | negInf, posInf => nan
  | posInf, _ => posInf
  | _, posInf => posInf
  | negInf, _ => negInf
  | _, negInf => negInf
  | num m1 e1, num m2 e2 =>
    let c := min e1 e2
    roundInt (m1 * twoPow (e1 - c).toNat + m2 * twoPow (e2 - c).toNat) c

/-- IEEE subtraction: add the negation (bit-identical to IEEE sub for
every operand combination, given the collapsed zero sign). -/
def sub (a b : F32) : F32 := add a (neg b)

/-- IEEE multiplication with round to nearest, ties to even. -/
def mul : F32 → F32 → F32
  | nan, _ => nan
  | _, nan => nan
  | posInf, num m _ => if m = 0 then nan else if m < 0 then negInf else posInf
  | num m _, posInf => if m = 0 then nan else if m < 0 then negInf else posInf
  | negInf, num m _ => if m = 0 then nan else if m < 0 then posInf else negInf
  | num m _, negInf => if m = 0 then nan else if m < 0 then posInf else negInf
  | posInf, posInf => posInf
  | posInf, negInf => negInf
  | negInf, posInf => negInf
  | negInf, negInf => posInf
  | num m1 e1, num m2 e2 => roundInt (m1 * m2) (e1 + e2)

/-- Correctly rounded quotient of the positive rational
(a * 2 ^ t) / b, a, b > 0, onto the binary32 grid (sign neg). -/
def divRound (neg : Bool) (a b : Nat) (t : Int) : F32 :=
  let D : Int := (bitlen a : Int) - bitlen b
  let E : Int :=
    (if a * 2 ^ (max 0 (-D)).toNat ≥ b * 2 ^ (max 0 D).toNat then D else D - 1) + t
  let g : Int := max (-149) (E - 23)
  let s : Int := t - g
  let N := a * 2 ^ (max 0 s).toNat
  let B := b * 2 ^ (max 0 (-s)).toNat
  let q := N / B
  let r := N % B
  let q' := if 2 * r > B ∨ (2 * r = B ∧ q % 2 = 1) then q + 1 else q
  mkF32 neg q' g

/-- IEEE division with round to nearest, ties to even.  Division by the
single (unsigned) zero of this model returns the infinity carrying the
sign of the dividend; the guarded code modelled in this file never
divides by zero. -/
def div : F32 → F32 → F32
  | nan, _ => nan
  | _, nan => nan
  | posInf, posInf => nan
  | posInf, negInf => nan
  | negInf, posInf => nan
  | negInf, negInf => nan
  | posInf, num m _ => if m < 0 then negInf else posInf
  | negInf, num m _ => if m < 0 then posInf else negInf
  | num _ _, posInf => num 0 0
  | num _ _, negInf => num 0 0
  | num m1 e1, num m2 e2 =>
    if m2 = 0 then
      if m1 = 0 then nan else if m1 < 0 then negInf else posInf
    else if m1 = 0 then num 0 0
    else divRound (decide ((m1 < 0) ≠ (m2 < 0))) m1.natAbs m2.natAbs (e1 - e2)

/-- Correctly rounded square root of the positive value a * 2 ^ e.
For canonical inputs the scaling exponent is never negative; the
fallback on the dead branch is irrelevant to reachable values. -/
def sqrtPos (a : Nat) (e : Int) : F32 :=
  let E : Int := (bitlen a : Int) - 1 + e
  let g : Int := max (-149) (Int.fdiv E 2 - 23)
  let t : Int := e - 2 * g
  if t < 0 then nan
  else
    let n := a * 2 ^ t.toNat
    let s := isqrt n
    let q := if n ≥ s * s + s + 1 then s + 1 else s
    mkF32 false q g

/-- IEEE square root with round to nearest, ties to even. -/
def sqrt : F32 → F32
  | nan => nan
  | posInf => posInf
  | negInf => nan
  | num m e => if m = 0 then num 0 0 else if m < 0 then nan else sqrtPos m.natAbs e

/-- IEEE strict less-than.  Any comparison with NaN is false. -/
def lt : F32 → F32 → Bool
  | nan, _ => false
  | _, nan => false
  | negInf, negInf => false
  | negInf, _ => true
  | _, negInf => false
  | posInf, _ => false
  | num _ _, posInf => true
  | num m1 e1, num m2 e2 =>
    let c := min e1 e2
    m1 * twoPow (e1 - c).toNat < m2 * twoPow (e2 - c).toNat

/-- IEEE equality with 0.0 (both zeroes compare equal to it; NaN does
not). -/
def isZero : F32 → Bool
  | num m _ => m = 0
  | _ => false

/-- Rust f32 clamp self min max with constant finite bounds: if
self < min return min, if self > max return max, otherwise (including
NaN) return self. -/
def clamp (x lo hi : F32) : F32 :=
  if lt x lo then lo else if lt hi x then hi else x

end F32

/-- Shorthand for a finite binary32 of integer value n. -/
def f32ofInt (n : Int) : F32 := roundInt n 0

-- Sanity checks of the rounding model against reference binary32
-- arithmetic (values cross-checked externally).
example : F32.add (f32ofInt 1) (f32ofInt (2 ^ 30)) = F32.num (2 ^ 23) 7 := by decide
example : F32.sub (F32.add (f32ofInt 1) (f32ofInt (2 ^ 30))) (f32ofInt (2 ^ 30)) =
    F32.num 0 0 := by decide
example : F32.div (f32ofInt 1) (f32ofInt 10) = F32.num 13421773 (-27) := by decide
example : F32.sqrt (f32ofInt 9) = F32.num (3 * 2 ^ 22) (-22) := by decide
example : F32.sqrt (f32ofInt 2) = F32.num 11863283 (-23) := by decide
example : f32ofInt 5 = F32.num (5 * 2 ^ 21) (-21) := by decide
example : F32.mul (f32ofInt 3) (f32ofInt 7) = f32ofInt 21 := by decide

/-! # Data model and codec (src/rpaint/src/models.rs) -/

/-- The four unmultiplied srgba channels of an egui Color32, each 0-255:
the view of a color that to_srgba_unmultiplied reads and
from_rgba_unmultiplied builds.  The premultiplied internal storage of
egui is outside this repository and is not observed by the code
modelled here. -/
structure Color32 where
  r : Fin 256
  g : Fin 256
  b : Fin 256
  a : Fin 256
deriving DecidableEq, Repr

/-- An egui Pos2: a 2D point with f32 coordinates. -/
structure Pos2 where
  x : F32
  y : F32
deriving DecidableEq, Repr

/-- A stroke: ordered points, color, width (models.rs Line). -/
structure Line where
  points : List Pos2
  color : Color32
  width : F32
deriving DecidableEq, Repr

/-- Wire form of a stroke (models.rs SerializableLine); color is the
packed u32. -/
structure SerializableLine where
  points : List (F32 × F32)
  color : Nat
  width : F32
deriving DecidableEq, Repr

/-- Color packing of From Line for SerializableLine:
((a as u32) << 24) | ((r as u32) << 16) | ((g as u32) << 8) | b. -/
def packColor (c : Color32) : Nat :=
  (c.a.val <<< 24) ||| (c.r.val <<< 16) ||| (c.g.val <<< 8) ||| c.b.val

/-- Color unpacking of From SerializableLine for Line:
from_rgba_unmultiplied((c >> 16) & 0xFF, (c >> 8) & 0xFF, c & 0xFF,
(c >> 24) & 0xFF). -/
def unpackColor (n : Nat) : Color32 :=
  { r := ⟨(n >>> 16) &&& 255, Nat.lt_of_le_of_lt Nat.and_le_right (by decide)⟩
    g := ⟨(n >>> 8) &&& 255, Nat.lt_of_le_of_lt Nat.and_le_right (by decide)⟩
    b := ⟨n &&& 255, Nat.lt_of_le_of_lt Nat.and_le_right (by decide)⟩
    a := ⟨(n >>> 24) &&& 255, Nat.lt_of_le_of_lt Nat.and_le_right (by decide)⟩ }

/-- From Line for SerializableLine (the encoder). -/
def serializableOfLine (l : Line) : SerializableLine :=
  { points := l.points.map (fun p => (p.x, p.y))
    color := packColor l.color
    width := l.width }

/-- From SerializableLine for Line (the decoder). -/
def lineOfSerializable (sl : SerializableLine) : Line :=
  { points := sl.points.map (fun q => ⟨q.1, q.2⟩)
    color := unpackColor sl.color
    width := sl.width }

/-! # Store and history engine (src/rpaint/src/app.rs) -/

/-- models.rs PaintAction. -/
inductive PaintAction : Type where
  | create (newLines : List SerializableLine)
  | delete (indices : List Nat) (cached : List SerializableLine)
  | modify (indices : List Nat) (oldLines newLines : List SerializableLine)
  | move (indices : List Nat) (dx dy : F32)
deriving DecidableEq, Repr

/-- The history-relevant state of PaintApp.  The head of each stack is
its top (the most recently pushed action).  The remaining fields of the
Rust struct (brush state, in-progress stroke, clipboard, drag state,
network handle) are neither read nor written by the operations modelled
here. -/
structure PaintApp where
  lines : List Line
  undoStack : List PaintAction
  redoStack : List PaintAction
  selectedIndices : List Nat
deriving DecidableEq, Repr

/-- Rust Vec::insert: panics (modelled as none) when the index exceeds
the current length. -/
def vecInsert {α : Type} (i : Nat) (x : α) (l : List α) : Option (List α) :=
  if i ≤ l.length then some (l.insertIdx i x) else none

/-- n iterations of Vec::pop (popping an empty vector is a no-op). -/
def popN {α : Type} : Nat → List α → List α
  | 0, l => l
  | n + 1, l => popN n l.dropLast

/-- Translate every point of a stroke by (dx, dy): the f32 += of Move. -/
def translateLine (dx dy : F32) (l : Line) : Line :=
  { l with points := l.points.map (fun p => ⟨F32.add p.x dx, F32.add p.y dy⟩) }

/-- Translate every point of a stroke by the negated delta: the f32 -=
of the undo of Move. -/
def untranslateLine (dx dy : F32) (l : Line) : Line :=
  { l with points := l.points.map (fun p => ⟨F32.sub p.x dx, F32.sub p.y dy⟩) }

/-- One step of the Delete loop: remove the index if it is in range,
silently skip it otherwise. -/
def eraseStep (ls : List Line) (idx : Nat) : List Line :=
  if idx < ls.length then ls.eraseIdx idx else ls

/-- One step of the Move loop: translate the stroke at the index if it
is in range, silently skip it otherwise. -/
def moveStep (dx dy : F32) (ls : List Line) (idx : Nat) : List Line :=
  match ls[idx]? with
  | some l => ls.set idx (translateLine dx dy l)
  | none => ls

/-- One step of the undo-of-Move loop. -/
def unmoveStep (dx dy : F32) (ls : List Line) (idx : Nat) : List Line :=
  match ls[idx]? with
  | some l => ls.set idx (untranslateLine dx dy l)
  | none => ls

/-- One step of the Modify loop over the enumerated index list: when the
target index is in range the replacement list is indexed (a Rust panic,
modelled as none, if it is too short); out-of-range targets are skipped
before that indexing happens, exactly as in the source. -/
def modifyStep (repl : List SerializableLine) (ls : List Line) (p : Nat × Nat) :
    Option (List Line) :=
  if p.2 < ls.length then
    match repl[p.1]? with
    | some sl => some (ls.set p.2 (lineOfSerializable sl))
    | none => none
  else some ls

/-- PaintApp::apply_action.  Delete processes its indices in descending
order (sort_by(|a, b| b.cmp(a)), modelled by a stable sort with the
flipped comparator). -/
def applyAction (app : PaintApp) (action : PaintAction) : Option PaintApp :=
  match action with
  | .create newLines =>
    some { app with lines := app.lines ++ newLines.map lineOfSerializable }
  | .delete indices _ =>
    let sorted := List.insertionSort (fun a b => b ≤ a) indices
    some { app with lines := sorted.foldl eraseStep app.lines }
  | .modify indices _ newLines =>
    (indices.enum.foldlM (modifyStep newLines) app.lines).map
      fun ls => { app with lines := ls }
  | .move indices dx dy =>
    some { app with lines := indices.foldl (moveStep dx dy) app.lines }

/-- PaintApp::execute: apply, push onto the undo stack, clear the redo
stack. -/
def execute (app : PaintApp) (action : PaintAction) : Option PaintApp :=
  (applyAction app action).map fun app' =>
    { app' with undoStack := action :: app'.undoStack, redoStack := [] }

/-- The inverse application performed by PaintApp::undo on the stroke
list.  The undo of Delete re-inserts the cached strokes in ascending
index order (a stable sort_by_key on the zipped pairs) with Vec::insert,
which panics past the end. -/
def undoApply (lines : List Line) : PaintAction → Option (List Line)
  | .create ls => some (popN ls.length lines)
  | .delete indices cached =>
    let combined := List.insertionSort (fun p q => p.1 ≤ q.1) (indices.zip cached)
    combined.foldlM (fun ls pr => vecInsert pr.1 (lineOfSerializable pr.2) ls) lines
  | .modify indices oldLines _ =>
    indices.enum.foldlM (modifyStep oldLines) lines
  | .move indices dx dy =>
    some (indices.foldl (unmoveStep dx dy) lines)

/-- PaintApp::undo: with an empty undo stack nothing happens at all;
otherwise pop, apply the inverse, push the original action onto the redo
stack and clear the selection. -/
def undo (app : PaintApp) : Option PaintApp :=
  match app.undoStack with
  | [] => some app
  | action :: rest =>
    (undoApply app.lines action).map fun ls =>
      { lines := ls
        undoStack := rest
        redoStack := action :: app.redoStack
        selectedIndices := [] }

/-- PaintApp::redo: with an empty redo stack nothing happens; otherwise
pop, apply forward, push onto the undo stack. -/
def redo (app : PaintApp) : Option PaintApp :=
  match app.redoStack with
  | [] => some app
  | action :: rest =>
    (applyAction app action).map fun app' =>
      { app' with redoStack := rest, undoStack := action :: app.undoStack }

/-- PaintApp::clear_all: nothing on an empty store; otherwise execute a
Delete of every index with every stroke cached, then clear the
selection. -/
def clearAll (app : PaintApp) : Option PaintApp :=
  if app.lines.isEmpty then some app
  else
    (execute app
        (.delete (List.range app.lines.length) (app.lines.map serializableOfLine))).map
      fun app' => { app' with selectedIndices := [] }

/-! # Synchronisation transport (src/rpaint/src/network.rs) -/

/-- network.rs DrawingMessage. -/
inductive DrawingMessage : Type where
  | drawLine (points : List (F32 × F32)) (color : Nat) (width : F32)
  | delete (indices : List Nat)
  | modify (indices : List Nat) (colors : List Nat) (widths : List F32)
  | move (indices : List Nat) (deltaX deltaY : F32)
  | clear
  | sync (linesData : String)
deriving DecidableEq, Repr

/-- network.rs NetworkEvent. -/
inductive NetworkEvent : Type where
  | peerDiscovered (addr : String)
  | peerExpired (addr : String)
  | messageReceived (msg : DrawingMessage)
  | connected
  | disconnected
deriving DecidableEq, Repr

/-- The state of NetworkManager observable from the interactive thread:
the connected flag, the peer counter, whether the send socket is bound,
and the event inbox. -/
structure NetworkManager where
  connected : Bool
  peerCount : Nat
  senderBound : Bool
  events : List NetworkEvent
deriving DecidableEq, Repr

/-- NetworkManager::broadcast_message.  The manager is taken by shared
reference, so the state is returned unchanged; the datagrams handed to
the socket are collected in the returned list (the JSON serialisation,
which cannot fail for these messages, and the OS send are external and
represented by the message itself). -/
def broadcastMessage (nm : NetworkManager) (msg : DrawingMessage) :
    NetworkManager × Except String Unit × List DrawingMessage :=
  if !nm.connected then (nm, Except.error "Not connected to network", [])
  else if nm.senderBound then (nm, Except.ok (), [msg])
  else (nm, Except.ok (), [])

/-! # Hit-testing (src/rpaint/src/utils.rs) -/

/-- egui Pos2::distance_sq: squared Euclidean distance, every f32
operation individually rounded. -/
def distanceSq (a b : Pos2) : F32 :=
  F32.add (F32.mul (F32.sub a.x b.x) (F32.sub a.x b.x))
    (F32.mul (F32.sub a.y b.y) (F32.sub a.y b.y))

/-- egui Pos2::distance: the Euclidean length of the difference vector.
At every argument appearing in the claims the value is exactly
representable, where any conforming implementation (sqrt of the sum of
squares, or hypot) returns the exact value modelled here. -/
def distance (a b : Pos2) : F32 := F32.sqrt (distanceSq a b)

/-- utils.rs dist_to_segment.  The comparison l2 == 0.0 is IEEE equality
with zero (false for NaN); t.clamp(0.0, 1.0) appears twice in the
source, computed on the same value both times. -/
def distToSegment (p a b : Pos2) : F32 :=
  let l2 := distanceSq a b
  if l2.isZero then distance p a
  else
    let t := F32.div
      (F32.add (F32.mul (F32.sub p.x a.x) (F32.sub b.x a.x))
        (F32.mul (F32.sub p.y a.y) (F32.sub b.y a.y))) l2
    distance p
      ⟨F32.add a.x (F32.mul (F32.clamp t (F32.num 0 0) (f32ofInt 1)) (F32.sub b.x a.x)),
       F32.add a.y (F32.mul (F32.clamp t (F32.num 0 0) (f32ofInt 1)) (F32.sub b.y a.y))⟩

-- Concrete sanity checks of the pipeline.
example : distToSegment ⟨f32ofInt 5, f32ofInt 3⟩ ⟨f32ofInt 0, f32ofInt 0⟩
    ⟨f32ofInt 10, f32ofInt 0⟩ = f32ofInt 3 := by decide
example : distToSegment ⟨f32ofInt 15, f32ofInt 0⟩ ⟨f32ofInt 0, f32ofInt 0⟩
    ⟨f32ofInt 10, f32ofInt 0⟩ = f32ofInt 5 := by decide

/-! # Codec lemmas -/

theorem lor_shiftLeft_add (z y k : Nat) (hy : y < 2 ^ k) :
    (z <<< k) ||| y = z <<< k + y := by
  apply Nat.eq_of_testBit_eq
  intro i
  rw [Nat.testBit_lor, Nat.testBit_shiftLeft, Nat.shiftLeft_eq, mul_comm z (2 ^ k),
    Nat.testBit_mul_pow_two_add z hy i]
  by_cases h : i < k
  · have h' : ¬ i ≥ k := by omega
    simp [h, h']
  · have h1 : i ≥ k := by omega
    have h2 : y < 2 ^ i :=
      lt_of_lt_of_le hy (Nat.pow_le_pow_right (by norm_num) (by omega))
    simp [h, h1, Nat.testBit_lt_two_pow h2]

theorem lor_shiftLeft_distrib (x y k : Nat) :
    (x ||| y) <<< k = (x <<< k) ||| (y <<< k) := by
  apply Nat.eq_of_testBit_eq
  intro i
  rw [Nat.testBit_shiftLeft, Nat.testBit_lor, Nat.testBit_lor,
    Nat.testBit_shiftLeft, Nat.testBit_shiftLeft, Bool.and_or_distrib_left]

/-- The packed color is the arithmetic byte layout: alpha in the highest
byte, then red, green, blue. -/
theorem packColor_eq (c : Color32) :
    packColor c = c.a.val * 2 ^ 24 + c.r.val * 2 ^ 16 + c.g.val * 2 ^ 8 + c.b.val := by
  obtain ⟨⟨r, hr⟩, ⟨g, hg⟩, ⟨b, hb⟩, ⟨a, ha⟩⟩ := c
  show (a <<< 24) ||| (r <<< 16) ||| (g <<< 8) ||| b = _
  have e24 : a <<< 24 = (a <<< 16) <<< 8 := by
    rw [← Nat.shiftLeft_add]
  have e16 : r <<< 16 = (r <<< 8) <<< 8 := by
    rw [← Nat.shiftLeft_add]
  have e16a : a <<< 16 = (a <<< 8) <<< 8 := by
    rw [← Nat.shiftLeft_add]
  rw [e24, e16, ← lor_shiftLeft_distrib, ← lor_shiftLeft_distrib,
    lor_shiftLeft_add _ _ _ hb, e16a, ← lor_shiftLeft_distrib,
    lor_shiftLeft_add _ _ _ hg, lor_shiftLeft_add _ _ _ hr]
  simp only [Nat.shiftLeft_eq]
  ring

/-- Unpacking inverts packing. -/
theorem unpackColor_packColor (c : Color32) : unpackColor (packColor c) = c := by
  obtain ⟨⟨r, hr⟩, ⟨g, hg⟩, ⟨b, hb⟩, ⟨a, ha⟩⟩ := c
  have hN := packColor_eq ⟨⟨r, hr⟩, ⟨g, hg⟩, ⟨b, hb⟩, ⟨a, ha⟩⟩
  simp only at hN
  rw [unpackColor, hN]
  have h255 : (255 : ℕ) = 2 ^ 8 - 1 := rfl
  simp only [Color32.mk.injEq, Fin.mk.injEq, h255, Nat.shiftRight_eq_div_pow,
    Nat.and_pow_two_sub_one_eq_mod]
  refine ⟨by omega, by omega, by omega, by omega⟩

/-- Decoding a stroke encoded by the codec restores it exactly. -/
theorem lineOfSerializable_serializableOfLine (l : Line) :
    lineOfSerializable (serializableOfLine l) = l := by
  obtain ⟨pts, c, w⟩ := l
  simp only [serializableOfLine, lineOfSerializable, List.map_map,
    unpackColor_packColor, Line.mk.injEq, and_true, true_and]
  induction pts with
  | nil => rfl
  | cons p ps ih => simpa using ih

/-! # Small structural lemmas about the history engine -/

theorem applyAction_frame (app : PaintApp) (a : PaintAction) (app' : PaintApp)
    (h : applyAction app a = some app') :
    app'.undoStack = app.undoStack ∧ app'.redoStack = app.redoStack ∧
      app'.selectedIndices = app.selectedIndices := by
  cases a with
  | create ls => simp [applyAction] at h; simp [← h]
  | delete idxs cached => simp [applyAction] at h; simp [← h]
  | modify idxs olds news =>
    simp only [applyAction, Option.map_eq_some'] at h
    obtain ⟨ls, _, rfl⟩ := h
    exact ⟨rfl, rfl, rfl⟩
  | move idxs dx dy => simp [applyAction] at h; simp [← h]

theorem execute_eq (app : PaintApp) (a : PaintAction) (app' : PaintApp)
    (h : execute app a = some app') :
    ∃ app₀, applyAction app a = some app₀ ∧
      app' = { app₀ with undoStack := a :: app₀.undoStack, redoStack := [] } := by
  simp only [execute, Option.map_eq_some'] at h
  obtain ⟨app₀, h₀, rfl⟩ := h
  exact ⟨app₀, h₀, rfl⟩

/-! # Claim C5 -/

/-- Claim C5: every execute() leaves the redo stack empty; redo() on an
empty redo stack is a complete no-op (store, both stacks, selection);
redo() never removes more than the one entry it pops; hence after
execute(a1) then execute(a2) a redo() is a no-op. -/
theorem C5_redo_stack_discipline :
    (∀ (app : PaintApp) (a : PaintAction) (app' : PaintApp),
        execute app a = some app' → app'.redoStack = []) ∧
    (∀ app : PaintApp, app.redoStack = [] → redo app = some app) ∧
    (∀ app app' : PaintApp, redo app = some app' →
        app'.redoStack = app.redoStack.tail) ∧
    (∀ (app : PaintApp) (a1 a2 : PaintAction) (app1 app2 : PaintApp),
        execute app a1 = some app1 → execute app1 a2 = some app2 →
        redo app2 = some app2) := by
  have h1 : ∀ (app : PaintApp) (a : PaintAction) (app' : PaintApp),
      execute app a = some app' → app'.redoStack = [] := by
    intro app a app' h
    obtain ⟨app₀, _, rfl⟩ := execute_eq app a app' h
    rfl
  have h2 : ∀ app : PaintApp, app.redoStack = [] → redo app = some app := by
    intro app h
    unfold redo
    rw [h]
  refine ⟨h1, h2, ?_, ?_⟩
  · intro app app' h
    unfold redo at h
    cases hr : app.redoStack with
    | nil =>
      rw [hr] at h
      cases h
      simp [hr]
    | cons a rest =>
      rw [hr] at h
      simp only [Option.map_eq_some'] at h
      obtain ⟨app₀, _, rfl⟩ := h
      simp [hr]
  · intro app a1 a2 app1 app2 _ h2e
    exact h2 app2 (h1 app1 a2 app2 h2e)

/-- Witness for C5 at a concrete two-execute history. -/
theorem C5_witness :
    redo ⟨[], [PaintAction.create [], PaintAction.create []], [], []⟩ =
      some ⟨[], [PaintAction.create [], PaintAction.create []], [], []⟩ :=
  C5_redo_stack_discipline.2.2.2 ⟨[], [], [], []⟩
    (PaintAction.create []) (PaintAction.create [])
    ⟨[], [PaintAction.create []], [], []⟩
    ⟨[], [PaintAction.create [], PaintAction.create []], [], []⟩
    (by decide) (by decide)

/-! # Claim C8 -/

/-- Claim C8: broadcasting while the transport is not connected returns
the not-connected error, sends nothing, and leaves the manager state
(connected flag, socket, peer counter, inbox) unchanged. -/
theorem C8_disconnected_broadcast :
    ∀ (nm : NetworkManager) (msg : DrawingMessage), nm.connected = false →
      broadcastMessage nm msg = (nm, Except.error "Not connected to network", []) := by
  intro nm msg h
  simp [broadcastMessage, h]

/-- Witness for C8 at a concrete disconnected manager. -/
theorem C8_witness :
    broadcastMessage ⟨false, 0, false, []⟩ DrawingMessage.clear =
      (⟨false, 0, false, []⟩, Except.error "Not connected to network", []) :=
  C8_disconnected_broadcast ⟨false, 0, false, []⟩ DrawingMessage.clear rfl

/-! # Claim C9 -/

/-- Claim C9: undo() with an empty undo stack and redo() with an empty
redo stack are complete no-ops: strokes, both stacks and the selection
(which is cleared only on a successful undo) are untouched. -/
theorem C9_empty_history_noop :
    ∀ app : PaintApp,
      (app.undoStack = [] → undo app = some app) ∧
      (app.redoStack = [] → redo app = some app) := by
  intro app
  constructor
  · intro h
    unfold undo
    rw [h]
  · intro h
    unfold redo
    rw [h]

/-- Witness for C9 at a concrete state with a nonempty selection. -/
theorem C9_witness :
    undo ⟨[], [], [], [2, 7]⟩ = some ⟨[], [], [], [2, 7]⟩ :=
  (C9_empty_history_noop ⟨[], [], [], [2, 7]⟩).1 rfl

/-! # Claim C6 -/

/-- A concrete stroke with unmultiplied channels (255, 0, 0, 128). -/
def demoRedLine : Line :=
  { points := [⟨f32ofInt 1, f32ofInt 2⟩, ⟨f32ofInt 3, f32ofInt 4⟩]
    color := { r := 255, g := 0, b := 0, a := 128 }
    width := f32ofInt 4 }

/-- Claim C6: the codec packs the four 8-bit channels with alpha in the
highest byte, then red, green, blue; unpacking inverts the packing for
every channel quadruple; points survive the round trip as ordered
pairs; and the concrete color (255, 0, 0, 128) round-trips. -/
theorem C6_codec_roundtrip :
    (∀ c : Color32,
        packColor c = c.a.val * 2 ^ 24 + c.r.val * 2 ^ 16 + c.g.val * 2 ^ 8 + c.b.val) ∧
    (∀ c : Color32, unpackColor (packColor c) = c) ∧
    (∀ l : Line, lineOfSerializable (serializableOfLine l) = l) ∧
    lineOfSerializable (serializableOfLine demoRedLine) = demoRedLine :=
  ⟨packColor_eq, unpackColor_packColor, lineOfSerializable_serializableOfLine,
    lineOfSerializable_serializableOfLine demoRedLine⟩

/-! # Claim C7 -/

/-- Claim C7: dist_to_segment projects onto the segment and clamps the
parameter to the unit interval: for the segment (0,0)-(10,0) the query
(5,3) gives exactly 3 and the query (15,0) gives exactly 5; for a
degenerate segment with coinciding finite endpoints it returns the
distance to that single point. -/
theorem C7_dist_to_segment :
    distToSegment ⟨f32ofInt 5, f32ofInt 3⟩ ⟨f32ofInt 0, f32ofInt 0⟩
        ⟨f32ofInt 10, f32ofInt 0⟩ = f32ofInt 3 ∧
    distToSegment ⟨f32ofInt 15, f32ofInt 0⟩ ⟨f32ofInt 0, f32ofInt 0⟩
        ⟨f32ofInt 10, f32ofInt 0⟩ = f32ofInt 5 ∧
    ∀ (p : Pos2) (qx ex qy ey : Int),
      distToSegment p ⟨F32.num qx ex, F32.num qy ey⟩ ⟨F32.num qx ex, F32.num qy ey⟩ =
        distance p ⟨F32.num qx ex, F32.num qy ey⟩ := by
  refine ⟨by decide, by decide, ?_⟩
  intro p qx ex qy ey
  have hsub : ∀ q e : Int, F32.sub (F32.num q e) (F32.num q e) = F32.num 0 0 := by
    intro q e
    simp [F32.sub, F32.neg, F32.add, roundInt]
  have hsq : distanceSq ⟨F32.num qx ex, F32.num qy ey⟩ ⟨F32.num qx ex, F32.num qy ey⟩ =
      F32.num 0 0 := by
    simp only [distanceSq, hsub]
    decide
  unfold distToSegment
  rw [hsq]
  rfl

/-! # Claim C1 -/

theorem eraseStep_pos {ls : List Line} {i : Nat} (h : i < ls.length) :
    eraseStep ls i = ls.eraseIdx i := by
  unfold eraseStep
  rw [if_pos h]

theorem eraseStep_oob {ls : List Line} {i : Nat} (h : ls.length ≤ i) :
    eraseStep ls i = ls := by
  unfold eraseStep
  rw [if_neg (by omega)]

theorem vecInsert_le {α : Type} {i : Nat} {x : α} {l : List α} (h : i ≤ l.length) :
    vecInsert i x l = some (l.insertIdx i x) := by
  unfold vecInsert
  rw [if_pos h]

theorem vecInsert_gt {α : Type} {i : Nat} {x : α} {l : List α} (h : l.length < i) :
    vecInsert i x l = none := by
  unfold vecInsert
  rw [if_neg (by omega)]

theorem snd_mem_of_mem_enumFrom {α : Type} {p : Nat × α} :
    ∀ {l : List α} {n : Nat}, p ∈ l.enumFrom n → p.2 ∈ l := by
  intro l
  induction l with
  | nil => intro n h; cases h
  | cons a l ih =>
    intro n h
    rw [List.enumFrom] at h
    rcases List.mem_cons.mp h with rfl | h2
    · exact List.mem_cons_self a l
    · exact List.mem_cons_of_mem a (ih h2)

theorem snd_mem_of_mem_enum {α : Type} {p : Nat × α} {l : List α}
    (h : p ∈ l.enum) : p.2 ∈ l :=
  snd_mem_of_mem_enumFrom h

theorem foldl_eraseStep_oob :
    ∀ (l : List Nat) (ls : List Line), (∀ i ∈ l, ls.length ≤ i) →
      l.foldl eraseStep ls = ls := by
  intro l
  induction l with
  | nil => intro ls _; rfl
  | cons i l ih =>
    intro ls h
    have h1 : eraseStep ls i = ls := eraseStep_oob (h i (List.mem_cons_self i l))
    simp only [List.foldl_cons, h1]
    exact ih ls fun j hj => h j (List.mem_cons_of_mem i hj)

theorem foldlM_modifyStep_oob (news : List SerializableLine) :
    ∀ (l : List (Nat × Nat)) (ls : List Line), (∀ p ∈ l, ls.length ≤ p.2) →
      l.foldlM (modifyStep news) ls = some ls := by
  intro l
  induction l with
  | nil => intro ls _; rfl
  | cons p l ih =>
    intro ls h
    have h1 : modifyStep news ls p = some ls := by
      unfold modifyStep
      rw [if_neg (by have := h p (List.mem_cons_self p l); omega)]
    simp only [List.foldlM_cons, h1, Option.bind_some]
    exact ih ls fun q hq => h q (List.mem_cons_of_mem p hq)

theorem foldl_moveStep_oob (dx dy : F32) :
    ∀ (l : List Nat) (ls : List Line), (∀ i ∈ l, ls.length ≤ i) →
      l.foldl (moveStep dx dy) ls = ls := by
  intro l
  induction l with
  | nil => intro ls _; rfl
  | cons i l ih =>
    intro ls h
    have h1 : moveStep dx dy ls i = ls := by
      unfold moveStep
      rw [List.getElem?_eq_none (h i (List.mem_cons_self i l))]
    simp only [List.foldl_cons, h1]
    exact ih ls fun j hj => h j (List.mem_cons_of_mem i hj)

/-- A concrete serialized stroke used by counterexamples and witnesses. -/
def demoSLine : SerializableLine :=
  ⟨[(f32ofInt 1, f32ofInt 2)], 4286578688, f32ofInt 4⟩

/-- Counterexample to claim C1 as stated: on a Store with no strokes,
undoing a Delete whose recorded original index 1 is out of range is not
a silent no-op — the unconditional Vec::insert in undo panics (none),
the one index-receiving operation of the engine that can fail. -/
theorem C1_counterexample :
    undo ⟨[], [PaintAction.delete [1] [demoSLine]], [], []⟩ = none := by decide

/-- Claim C1 as amended: apply_action is index-tolerant — a Delete,
Modify or Move whose indices are all out of range (at least the current
stroke count) returns the state unchanged and never fails — but the
undo of a Delete is not: it re-inserts each cached stroke
unconditionally, so a recorded index strictly greater than the current
length makes undo panic, and an index equal to the current length
appends instead of being a no-op. -/
theorem C1_index_tolerance :
    (∀ (app : PaintApp) (idxs : List Nat) (cached : List SerializableLine),
        (∀ i ∈ idxs, app.lines.length ≤ i) →
        applyAction app (.delete idxs cached) = some app) ∧
    (∀ (app : PaintApp) (idxs : List Nat) (olds news : List SerializableLine),
        (∀ i ∈ idxs, app.lines.length ≤ i) →
        applyAction app (.modify idxs olds news) = some app) ∧
    (∀ (app : PaintApp) (idxs : List Nat) (dx dy : F32),
        (∀ i ∈ idxs, app.lines.length ≤ i) →
        applyAction app (.move idxs dx dy) = some app) ∧
    (∀ (app : PaintApp) (i : Nat) (c : SerializableLine) (rest : List PaintAction),
        app.undoStack = PaintAction.delete [i] [c] :: rest →
        app.lines.length < i → undo app = none) ∧
    (∀ (app : PaintApp) (c : SerializableLine) (rest : List PaintAction),
        app.undoStack = PaintAction.delete [app.lines.length] [c] :: rest →
        undo app = some ⟨app.lines ++ [lineOfSerializable c], rest,
          PaintAction.delete [app.lines.length] [c] :: app.redoStack, []⟩) := by
  refine ⟨?_, ?_, ?_, ?_, ?_⟩
  · intro app idxs cached h
    simp only [applyAction]
    rw [foldl_eraseStep_oob _ _ ?_]
    · intro i hi
      exact h i ((List.perm_insertionSort _ idxs).mem_iff.mp hi)
  · intro app idxs olds news h
    simp only [applyAction]
    rw [foldlM_modifyStep_oob news _ _ ?_]
    · rfl
    · intro p hp
      exact h p.2 (snd_mem_of_mem_enum hp)
  · intro app idxs dx dy h
    simp only [applyAction]
    rw [foldl_moveStep_oob dx dy idxs app.lines h]
  · intro app i c rest hstack hlen
    unfold undo
    rw [hstack]
    have hsort : List.insertionSort (fun p q => p.1 ≤ q.1) ([i].zip [c]) = [(i, c)] := rfl
    simp only [undoApply, hsort, List.foldlM_cons, List.foldlM_nil,
      vecInsert_gt hlen]
    rfl
  · intro app c rest hstack
    unfold undo
    rw [hstack]
    have hsort : List.insertionSort (fun p q => p.1 ≤ q.1)
        ([app.lines.length].zip [c]) = [(app.lines.length, c)] := rfl
    simp only [undoApply, hsort, List.foldlM_cons, List.foldlM_nil,
      vecInsert_le (le_refl app.lines.length), List.insertIdx_length_self]
    rfl

/-- Witness for C1 as amended: a Delete targeting the out-of-range index
5 on a one-stroke Store applies as a no-op without failing. -/
theorem C1_witness :
    applyAction ⟨[demoRedLine], [], [], []⟩ (.delete [5] [demoSLine]) =
      some ⟨[demoRedLine], [], [], []⟩ :=
  C1_index_tolerance.1 ⟨[demoRedLine], [], [], []⟩ [5] [demoSLine]
    (by intro i hi; simp at hi; subst hi; simp)

/-! # Claim C4 -/

/-- Claim C4: on a Store with at least four strokes, executing a Delete
of indices [3,1] with the matching cached strokes removes exactly the
strokes at positions 3 and 1 (descending application order), and the
following undo re-inserts them at positions 1 and 3 (ascending order),
restoring the pre-delete stroke list and undo stack; listing the
indices as [1,3] instead gives the identical results. -/
theorem C4_delete_undo_symmetry :
    ∀ (l0 l1 l2 l3 : Line) (rest : List Line) (us rs : List PaintAction)
      (sel : List Nat) (idxs : List Nat) (cached : List SerializableLine),
      (idxs = [3, 1] ∧ cached = [serializableOfLine l3, serializableOfLine l1]) ∨
        (idxs = [1, 3] ∧ cached = [serializableOfLine l1, serializableOfLine l3]) →
      ∃ app', execute ⟨l0 :: l1 :: l2 :: l3 :: rest, us, rs, sel⟩
          (.delete idxs cached) = some app' ∧
        app'.lines = l0 :: l2 :: rest ∧
        app'.undoStack = .delete idxs cached :: us ∧
        ∃ app'', undo app' = some app'' ∧
          app''.lines = l0 :: l1 :: l2 :: l3 :: rest ∧ app''.undoStack = us := by
  intro l0 l1 l2 l3 rest us rs sel idxs cached hcase
  have hsort : List.insertionSort (fun a b => b ≤ a) idxs = [3, 1] := by
    rcases hcase with ⟨rfl, _⟩ | ⟨rfl, _⟩ <;> rfl
  have hzip : List.insertionSort (fun p q => p.1 ≤ q.1) (idxs.zip cached) =
      [(1, serializableOfLine l1), (3, serializableOfLine l3)] := by
    rcases hcase with ⟨rfl, rfl⟩ | ⟨rfl, rfl⟩ <;> rfl
  have e3 : eraseStep (l0 :: l1 :: l2 :: l3 :: rest) 3 = l0 :: l1 :: l2 :: rest := by
    rw [eraseStep_pos (by simp only [List.length_cons]; omega)]
    rfl
  have e1 : eraseStep (l0 :: l1 :: l2 :: rest) 1 = l0 :: l2 :: rest := by
    rw [eraseStep_pos (by simp only [List.length_cons]; omega)]
    rfl
  have happly : applyAction ⟨l0 :: l1 :: l2 :: l3 :: rest, us, rs, sel⟩
      (.delete idxs cached) = some ⟨l0 :: l2 :: rest, us, rs, sel⟩ := by
    simp only [applyAction, hsort, List.foldl_cons, List.foldl_nil, e3, e1]
  have hexec : execute ⟨l0 :: l1 :: l2 :: l3 :: rest, us, rs, sel⟩
      (.delete idxs cached) =
      some ⟨l0 :: l2 :: rest, .delete idxs cached :: us, [], sel⟩ := by
    unfold execute
    rw [happly]
    rfl
  have i1 : vecInsert 1 (lineOfSerializable (serializableOfLine l1))
      (l0 :: l2 :: rest) = some (l0 :: l1 :: l2 :: rest) := by
    rw [vecInsert_le (by simp only [List.length_cons]; omega),
      lineOfSerializable_serializableOfLine]
    rfl
  have i3 : vecInsert 3 (lineOfSerializable (serializableOfLine l3))
      (l0 :: l1 :: l2 :: rest) = some (l0 :: l1 :: l2 :: l3 :: rest) := by
    rw [vecInsert_le (by simp only [List.length_cons]; omega),
      lineOfSerializable_serializableOfLine]
    rfl
  have hundo : undo ⟨l0 :: l2 :: rest, .delete idxs cached :: us, [], sel⟩ =
      some ⟨l0 :: l1 :: l2 :: l3 :: rest, us, [.delete idxs cached], []⟩ := by
    unfold undo
    simp [undoApply, hzip, i1, i3]
  exact ⟨_, hexec, rfl, rfl, _, hundo, rfl, rfl⟩

/-- Witness for C4 at a concrete four-stroke store. -/
theorem C4_witness :
    ∃ app', execute ⟨[demoRedLine, demoRedLine, demoRedLine, demoRedLine], [], [], []⟩
        (.delete [3, 1] [serializableOfLine demoRedLine, serializableOfLine demoRedLine]) =
        some app' ∧
      app'.lines = [demoRedLine, demoRedLine] ∧
      app'.undoStack =
        [.delete [3, 1] [serializableOfLine demoRedLine, serializableOfLine demoRedLine]] ∧
      ∃ app'', undo app' = some app'' ∧
        app''.lines = [demoRedLine, demoRedLine, demoRedLine, demoRedLine] ∧
        app''.undoStack = [] :=
  C4_delete_undo_symmetry demoRedLine demoRedLine demoRedLine demoRedLine [] [] [] []
    [3, 1] [serializableOfLine demoRedLine, serializableOfLine demoRedLine]
    (Or.inl ⟨rfl, rfl⟩)

/-! # Sorting and insertion lemmas for the Delete machinery -/

instance instTotalGeNat : IsTotal Nat (fun a b => b ≤ a) :=
  ⟨fun a b => le_total b a⟩

instance instTransGeNat : IsTrans Nat (fun a b => b ≤ a) :=
  ⟨fun _ _ _ h1 h2 => le_trans h2 h1⟩

instance instAntisymmGeNat : IsAntisymm Nat (fun a b => b ≤ a) :=
  ⟨fun _ _ h1 h2 => le_antisymm h2 h1⟩

instance instTotalKeyLe : IsTotal (Nat × SerializableLine) (fun p q => p.1 ≤ q.1) :=
  ⟨fun p q => le_total p.1 q.1⟩

instance instTransKeyLe : IsTrans (Nat × SerializableLine) (fun p q => p.1 ≤ q.1) :=
  ⟨fun _ _ _ h1 h2 => le_trans h1 h2⟩

/-- The descending sort of a strictly ascending index list is its
reverse. -/
theorem insertionSortDesc_eq_reverse {idxs : List Nat}
    (h : List.Sorted (· < ·) idxs) :
    List.insertionSort (fun a b => b ≤ a) idxs = idxs.reverse := by
  apply List.eq_of_perm_of_sorted (r := fun a b => b ≤ a)
  · exact (List.perm_insertionSort _ idxs).trans (idxs.reverse_perm).symm
  · exact List.sorted_insertionSort _ idxs
  · exact List.pairwise_reverse.mpr (h.imp fun hab => le_of_lt hab)

/-- Zipping a strictly ascending index list with caches gives a pair
list already sorted by key. -/
theorem sorted_zip_of_sorted_lt :
    ∀ {idxs : List Nat} {lns : List SerializableLine},
      List.Sorted (· < ·) idxs →
      List.Sorted (fun p q : Nat × SerializableLine => p.1 ≤ q.1) (idxs.zip lns) := by
  intro idxs
  induction idxs with
  | nil => intro lns _; simp
  | cons i is ih =>
    intro lns h
    cases lns with
    | nil => simp
    | cons x xs =>
      rw [List.zip_cons_cons, List.sorted_cons]
      refine ⟨?_, ih (List.sorted_cons.mp h).2⟩
      intro q hq
      exact le_of_lt ((List.sorted_cons.mp h).1 q.1 (List.of_mem_zip hq).1)

/-- Re-inserting the removed element restores the list. -/
theorem insertIdx_eraseIdx_getElem :
    ∀ (L : List Line) (i : Nat) (h : i < L.length),
      (L.eraseIdx i).insertIdx i L[i] = L := by
  intro L
  induction L with
  | nil => intro i h; simp at h
  | cons a t ih =>
    intro i h
    cases i with
    | zero => rfl
    | succ i =>
      rw [List.eraseIdx_cons_succ, List.getElem_cons_succ,
        List.insertIdx_succ_cons, ih i (by simpa using h)]

/-- A default stroke, only used as the irrelevant fallback of getD. -/
def dummyLine : Line := ⟨[], ⟨0, 0, 0, 0⟩, F32.num 0 0⟩

theorem getD_eraseIdx_lt (L : List Line) {i j : Nat} (hj : j < L.length)
    (hij : i < j) :
    (L.eraseIdx j).getD i dummyLine = L.getD i dummyLine := by
  have hlen : (L.eraseIdx j).length = L.length - 1 := by
    rw [List.length_eraseIdx]
    rw [if_pos hj]
  have hi : i < (L.eraseIdx j).length := by omega
  have hi' : i < L.length := by omega
  rw [List.getD_eq_getElem _ _ hi, List.getD_eq_getElem _ _ hi',
    List.getElem_eraseIdx_of_lt L j i hi hij]

/-- Core Delete round trip: erasing a strictly ascending in-range index
list in descending order, then re-inserting the cached strokes in
ascending order, restores the original stroke list. -/
theorem erase_then_insert :
    ∀ (idxs : List Nat) (L : List Line),
      List.Sorted (· < ·) idxs → (∀ i ∈ idxs, i < L.length) →
      (idxs.zip (idxs.map fun i => serializableOfLine (L.getD i dummyLine))).foldlM
          (fun ls pr => vecInsert pr.1 (lineOfSerializable pr.2) ls)
          (idxs.reverse.foldl eraseStep L) = some L := by
  intro idxs
  induction idxs using List.reverseRecOn with
  | nil => intro L _ _; rfl
  | append_singleton ys j ih =>
    intro L hs hin
    have hys : List.Sorted (· < ·) ys := (List.pairwise_append.mp hs).1
    have hlt : ∀ y ∈ ys, y < j := by
      intro y hy
      exact (List.pairwise_append.mp hs).2.2 y hy j (List.mem_singleton.mpr rfl)
    have hj : j < L.length := hin j (List.mem_append_right ys (List.mem_singleton.mpr rfl))
    have hlenE : (L.eraseIdx j).length = L.length - 1 := by
      rw [List.length_eraseIdx, if_pos hj]
    have hmap : (ys ++ [j]).map (fun i => serializableOfLine (L.getD i dummyLine)) =
        ys.map (fun i => serializableOfLine ((L.eraseIdx j).getD i dummyLine)) ++
          [serializableOfLine (L.getD j dummyLine)] := by
      rw [List.map_append]
      congr 1
      exact List.map_congr_left fun i hi => by
        rw [getD_eraseIdx_lt L hj (hlt i hi)]
    have hzip : (ys ++ [j]).zip
        ((ys ++ [j]).map fun i => serializableOfLine (L.getD i dummyLine)) =
        ys.zip (ys.map fun i => serializableOfLine ((L.eraseIdx j).getD i dummyLine)) ++
          [(j, serializableOfLine (L.getD j dummyLine))] := by
      rw [hmap, List.zip_append (by simp)]
      rfl
    have hfold : (ys ++ [j]).reverse.foldl eraseStep L =
        ys.reverse.foldl eraseStep (L.eraseIdx j) := by
      rw [List.reverse_concat, List.foldl_cons, eraseStep_pos hj]
    rw [hzip, hfold, List.foldlM_append]
    have hinE : ∀ i ∈ ys, i < (L.eraseIdx j).length := by
      intro i hi
      have := hlt i hi
      omega
    rw [ih (L.eraseIdx j) hys hinE]
    have hjE : j ≤ (L.eraseIdx j).length := by omega
    have hround : lineOfSerializable (serializableOfLine (L.getD j dummyLine)) =
        L.getD j dummyLine := lineOfSerializable_serializableOfLine _
    simp only [Option.bind_eq_bind, Option.some_bind, List.foldlM_cons,
      vecInsert_le hjE, hround, List.foldlM_nil, Option.some_bind]
    rw [List.getD_eq_getElem _ _ hj, insertIdx_eraseIdx_getElem L j hj]
    rfl

/-! # Modify machinery -/

/-- The pure effect of one Modify write once the enumeration bookkeeping
is resolved: set the target if in range, skip otherwise. -/
def setStep (ls : List Line) (pr : Nat × SerializableLine) : List Line :=
  if pr.1 < ls.length then ls.set pr.1 (lineOfSerializable pr.2) else ls

theorem setStep_length (ls : List Line) (pr : Nat × SerializableLine) :
    (setStep ls pr).length = ls.length := by
  unfold setStep
  split
  · rw [List.length_set]
  · rfl

/-- The enumerated Modify fold equals the plain pair fold and never
panics when the replacement list is long enough. -/
theorem modifyFold_eq_setFold (repl : List SerializableLine) :
    ∀ (idxs : List Nat) (n : Nat) (L : List Line),
      idxs.length + n ≤ repl.length →
      (List.enumFrom n idxs).foldlM (modifyStep repl) L =
        some ((idxs.zip (repl.drop n)).foldl setStep L) := by
  intro idxs
  induction idxs with
  | nil => intro n L _; rfl
  | cons i is ih =>
    intro n L h
    have hn : n < repl.length := by
      simp only [List.length_cons] at h
      omega
    have hstep : modifyStep repl L (n, i) = some (setStep L (i, repl[n])) := by
      unfold modifyStep setStep
      simp only
      by_cases hi : i < L.length
      · rw [if_pos hi, if_pos hi, List.getElem?_eq_getElem hn]
      · rw [if_neg hi, if_neg hi]
    show ((n, i) :: List.enumFrom (n + 1) is).foldlM (modifyStep repl) L = _
    rw [List.foldlM_cons, hstep]
    rw [List.drop_eq_getElem_cons hn, List.zip_cons_cons, List.foldl_cons]
    simp only [Option.bind_eq_bind, Option.some_bind]
    exact ih (n + 1) _ (by simp only [List.length_cons] at h; omega)

theorem setFold_length :
    ∀ (pairs : List (Nat × SerializableLine)) (L : List Line),
      (pairs.foldl setStep L).length = L.length := by
  intro pairs
  induction pairs with
  | nil => intro L; rfl
  | cons p ps ih =>
    intro L
    rw [List.foldl_cons, ih, setStep_length]

theorem setFold_getElem?_not_mem :
    ∀ (pairs : List (Nat × SerializableLine)) (L : List Line) (k : Nat),
      (∀ p ∈ pairs, p.1 ≠ k) → (pairs.foldl setStep L)[k]? = L[k]? := by
  intro pairs
  induction pairs with
  | nil => intro L k _; rfl
  | cons p ps ih =>
    intro L k h
    rw [List.foldl_cons, ih _ k fun q hq => h q (List.mem_cons_of_mem p hq)]
    unfold setStep
    split
    · exact List.getElem?_set_ne (h p (List.mem_cons_self p ps))
    · rfl

theorem setFold_getElem?_mem (g : Nat → Line) :
    ∀ (pairs : List (Nat × SerializableLine)) (L : List Line) (k : Nat),
      (∀ p ∈ pairs, lineOfSerializable p.2 = g p.1) →
      k < L.length → (∃ p ∈ pairs, p.1 = k) →
      (pairs.foldl setStep L)[k]? = some (g k) := by
  intro pairs
  induction pairs with
  | nil =>
    intro L k _ _ hmem
    obtain ⟨p, hp, _⟩ := hmem
    cases hp
  | cons p ps ih =>
    intro L k hg hk hmem
    rw [List.foldl_cons]
    by_cases hps : ∃ q ∈ ps, q.1 = k
    · exact ih _ k (fun q hq => hg q (List.mem_cons_of_mem p hq))
        (by rw [setStep_length]; exact hk) hps
    · have hp : p.1 = k := by
        obtain ⟨q, hq, hq1⟩ := hmem
        rcases List.mem_cons.mp hq with rfl | hmem'
        · exact hq1
        · exact absurd ⟨q, hmem', hq1⟩ hps
      rw [setFold_getElem?_not_mem ps _ k fun q hq hqk => hps ⟨q, hq, hqk⟩]
      unfold setStep
      rw [hp, if_pos hk, List.getElem?_set_self hk,
        hg p (List.mem_cons_self p ps), hp]

theorem setFold_getElem?_congr :
    ∀ (pairs : List (Nat × SerializableLine)) (L1 L2 : List Line) (k : Nat),
      L1.length = L2.length → (∃ p ∈ pairs, p.1 = k) →
      (pairs.foldl setStep L1)[k]? = (pairs.foldl setStep L2)[k]? := by
  intro pairs
  induction pairs with
  | nil =>
    intro L1 L2 k _ hmem
    obtain ⟨p, hp, _⟩ := hmem
    cases hp
  | cons p ps ih =>
    intro L1 L2 k hlen hmem
    rw [List.foldl_cons, List.foldl_cons]
    by_cases hps : ∃ q ∈ ps, q.1 = k
    · exact ih _ _ k (by rw [setStep_length, setStep_length, hlen]) hps
    · have hp : p.1 = k := by
        obtain ⟨q, hq, hq1⟩ := hmem
        rcases List.mem_cons.mp hq with rfl | hmem'
        · exact hq1
        · exact absurd ⟨q, hmem', hq1⟩ hps
      rw [setFold_getElem?_not_mem ps _ k fun q hq hqk => hps ⟨q, hq, hqk⟩,
        setFold_getElem?_not_mem ps _ k fun q hq hqk => hps ⟨q, hq, hqk⟩]
      unfold setStep
      rw [hp]
      by_cases hk : k < L1.length
      · rw [if_pos hk, if_pos (hlen ▸ hk), List.getElem?_set_self hk,
          List.getElem?_set_self (hlen ▸ hk)]
      · rw [if_neg hk, if_neg (by omega), List.getElem?_eq_none (by omega),
          List.getElem?_eq_none (by omega)]

/-! # Move machinery -/

/-- Generic form of one Move or undo-of-Move iteration: apply f to the
stroke at the index if in range, skip otherwise. -/
def touchStep (f : Line → Line) (ls : List Line) (idx : Nat) : List Line :=
  match ls[idx]? with
  | some l => ls.set idx (f l)
  | none => ls

theorem moveStep_eq_touchStep (dx dy : F32) :
    moveStep dx dy = touchStep (translateLine dx dy) := rfl

theorem unmoveStep_eq_touchStep (dx dy : F32) :
    unmoveStep dx dy = touchStep (untranslateLine dx dy) := rfl

theorem touchStep_length (f : Line → Line) (ls : List Line) (idx : Nat) :
    (touchStep f ls idx).length = ls.length := by
  unfold touchStep
  split
  · rw [List.length_set]
  · rfl

theorem touchFold_length (f : Line → Line) :
    ∀ (idxs : List Nat) (L : List Line),
      (idxs.foldl (touchStep f) L).length = L.length := by
  intro idxs
  induction idxs with
  | nil => intro L; rfl
  | cons i is ih => intro L; rw [List.foldl_cons, ih, touchStep_length]

theorem touchFold_getElem?_not_mem (f : Line → Line) :
    ∀ (idxs : List Nat) (L : List Line) (k : Nat), k ∉ idxs →
      (idxs.foldl (touchStep f) L)[k]? = L[k]? := by
  intro idxs
  induction idxs with
  | nil => intro L k _; rfl
  | cons i is ih =>
    intro L k h
    rw [List.foldl_cons, ih _ k fun hk => h (List.mem_cons_of_mem i hk)]
    unfold touchStep
    split
    · exact List.getElem?_set_ne fun hik =>
        h (by rw [← hik]; exact List.mem_cons_self i is)
    · rfl

theorem touchStep_getElem?_self (f : Line → Line) (L : List Line) (i : Nat) :
    (touchStep f L i)[i]? = (L[i]?).map f := by
  unfold touchStep
  cases h : L[i]? with
  | none => rw [h]; rfl
  | some l =>
    rw [List.getElem?_set_self]
    · rfl
    · exact (List.getElem?_eq_some_iff.mp h).1

theorem touchFold_getElem?_mem (f : Line → Line) :
    ∀ (idxs : List Nat) (L : List Line) (k : Nat), idxs.Nodup → k ∈ idxs →
      (idxs.foldl (touchStep f) L)[k]? = (L[k]?).map f := by
  intro idxs
  induction idxs with
  | nil => intro L k _ hk; cases hk
  | cons i is ih =>
    intro L k hnd hk
    rw [List.foldl_cons]
    rcases List.mem_cons.mp hk with rfl | hmem
    · rw [touchFold_getElem?_not_mem f is _ k (List.nodup_cons.mp hnd).1]
      exact touchStep_getElem?_self f L k
    · have hik : i ≠ k := fun h => (List.nodup_cons.mp hnd).1 (h ▸ hmem)
      rw [ih _ k (List.nodup_cons.mp hnd).2 hmem]
      unfold touchStep
      split
      · rw [List.getElem?_set_ne hik]
      · rfl

/-! # Create machinery -/

theorem popN_append : ∀ (M L : List Line), popN M.length (L ++ M) = L := by
  intro M
  induction M using List.reverseRecOn with
  | nil => intro L; simp [popN]
  | append_singleton N x ih =>
    intro L
    have hlen : (N ++ [x]).length = N.length + 1 := by simp
    rw [hlen]
    show popN N.length (L ++ (N ++ [x])).dropLast = L
    rw [← List.append_assoc, List.dropLast_concat]
    exact ih L

/-! # Redo machinery for Delete -/

/-- Erasing, in reverse order, exactly the positions at which strokes
were just inserted recovers the pre-insertion list. -/
theorem insert_then_erase :
    ∀ (P : List (Nat × SerializableLine)) (E U : List Line),
      P.foldlM (fun ls pr => vecInsert pr.1 (lineOfSerializable pr.2) ls) E = some U →
      (P.map Prod.fst).reverse.foldl eraseStep U = E := by
  intro P
  induction P using List.reverseRecOn with
  | nil =>
    intro E U h
    injection h with h
    rw [← h]
    rfl
  | append_singleton Q p ih =>
    intro E U h
    rw [List.foldlM_append] at h
    cases hQ : Q.foldlM (fun ls pr => vecInsert pr.1 (lineOfSerializable pr.2) ls) E with
    | none => rw [hQ] at h; simp at h
    | some V =>
      rw [hQ] at h
      simp only [Option.bind_eq_bind, Option.some_bind, List.foldlM_cons,
        List.foldlM_nil] at h
      cases hins : vecInsert p.1 (lineOfSerializable p.2) V with
      | none => rw [hins] at h; simp at h
      | some W =>
        rw [hins] at h
        simp only [Option.some_bind] at h
        injection h with h
        subst h
        unfold vecInsert at hins
        by_cases hle : p.1 ≤ V.length
        · rw [if_pos hle] at hins
          injection hins with hins
          subst hins
          have hrev : ((Q ++ [p]).map Prod.fst).reverse =
              p.1 :: (Q.map Prod.fst).reverse := by
            rw [List.map_append, List.reverse_append]
            rfl
          rw [hrev, List.foldl_cons,
            eraseStep_pos (by rw [List.length_insertIdx p.1 V hle]; omega),
            List.eraseIdx_insertIdx]
          exact ih E V hQ
        · rw [if_neg hle] at hins
          cases hins

/-! # Claim C2 -/

/-- Pointwise exactness of the floating-point inversion of a Move: for
every affected stroke, subtracting the delta returns each translated
coordinate to its original value.  This holds for many inputs but fails
for some f32 values (rounding), which is what the C2 counterexample
exhibits. -/
def MoveUndoExact (L : List Line) (idxs : List Nat) (dx dy : F32) : Prop :=
  ∀ k ∈ idxs, ∀ l : Line, L[k]? = some l → ∀ p ∈ l.points,
    F32.sub (F32.add p.x dx) dx = p.x ∧ F32.sub (F32.add p.y dy) dy = p.y

/-- Well-formedness of an action with respect to the stroke list it is
executed on, as the application itself constructs actions: Delete lists
strictly ascending in-range indices and caches exactly the strokes at
those indices; Modify targets in-range indices, caches the current
strokes as old_lines, and supplies at least as many replacement strokes
as indices; Move uses distinct indices and a delta whose floating-point
addition is exactly inverted by the subtraction on every affected
coordinate. -/
def UndoWF (L : List Line) : PaintAction → Prop
  | .create _ => True
  | .delete idxs cached =>
    List.Sorted (· < ·) idxs ∧ (∀ i ∈ idxs, i < L.length) ∧
      cached = idxs.map fun i => serializableOfLine (L.getD i dummyLine)
  | .modify idxs olds news =>
    (∀ i ∈ idxs, i < L.length) ∧
      olds = (idxs.map fun i => serializableOfLine (L.getD i dummyLine)) ∧
      idxs.length ≤ news.length
  | .move idxs dx dy => idxs.Nodup ∧ MoveUndoExact L idxs dx dy

/-- For a pair list of the shape zip idxs (map f idxs), every member is
(i, f i) for some i in idxs. -/
theorem zip_self_map {f : Nat → SerializableLine} :
    ∀ idxs : List Nat, idxs.zip (idxs.map f) = idxs.map fun i => (i, f i) := by
  intro idxs
  induction idxs with
  | nil => rfl
  | cons i is ih => rw [List.map_cons, List.zip_cons_cons, ih, List.map_cons]

/-- One execute immediately followed by one undo restores the stroke
list and the undo stack of any state, for any action well-formed with
respect to that state. -/
theorem execute_undo_step (app : PaintApp) (a : PaintAction)
    (h : UndoWF app.lines a) :
    ∃ app₁ app₂, execute app a = some app₁ ∧ undo app₁ = some app₂ ∧
      app₂.lines = app.lines ∧ app₂.undoStack = app.undoStack ∧
      app₂.redoStack = [a] ∧ app₂.selectedIndices = [] := by
  obtain ⟨L, us, rs, sel⟩ := app
  cases a with
  | create ls =>
    refine ⟨⟨L ++ ls.map lineOfSerializable, .create ls :: us, [], sel⟩,
      ⟨L, us, [.create ls], []⟩, rfl, ?_, rfl, rfl, rfl, rfl⟩
    unfold undo
    simp only [undoApply]
    rw [show ls.length = (ls.map lineOfSerializable).length by rw [List.length_map],
      popN_append]
    rfl
  | delete idxs cached =>
    obtain ⟨hs, hin, hc⟩ := h
    have happly : applyAction ⟨L, us, rs, sel⟩ (.delete idxs cached) =
        some ⟨idxs.reverse.foldl eraseStep L, us, rs, sel⟩ := by
      simp only [applyAction, insertionSortDesc_eq_reverse hs]
    refine ⟨⟨idxs.reverse.foldl eraseStep L, .delete idxs cached :: us, [], sel⟩,
      ⟨L, us, [.delete idxs cached], []⟩, ?_, ?_, rfl, rfl, rfl, rfl⟩
    · unfold execute
      rw [happly]
      rfl
    · unfold undo
      simp only [undoApply]
      rw [hc, (sorted_zip_of_sorted_lt hs).insertionSort_eq,
        erase_then_insert idxs L hs hin]
      rfl
  | modify idxs olds news =>
    obtain ⟨hin, holds, hnews⟩ := h
    have hlenolds : idxs.length ≤ olds.length := by
      rw [holds, List.length_map]
    have happly : applyAction ⟨L, us, rs, sel⟩ (.modify idxs olds news) =
        some ⟨(idxs.zip news).foldl setStep L, us, rs, sel⟩ := by
      simp only [applyAction, List.enum_eq_enumFrom]
      rw [modifyFold_eq_setFold news idxs 0 L (by omega), List.drop_zero]
      rfl
    have hundoApply : undoApply ((idxs.zip news).foldl setStep L)
        (.modify idxs olds news) = some L := by
      show idxs.enum.foldlM (modifyStep olds) ((idxs.zip news).foldl setStep L) = some L
      rw [List.enum_eq_enumFrom, modifyFold_eq_setFold olds idxs 0 _ (by omega),
        List.drop_zero]
      congr 1
      apply List.ext_getElem?
      intro k
      by_cases hk : k ∈ idxs
      · have hkL : k < L.length := hin k hk
        have hdet : ∀ p ∈ idxs.zip olds,
            lineOfSerializable p.2 = L.getD p.1 dummyLine := by
          intro p hp
          rw [holds, zip_self_map] at hp
          obtain ⟨i, _, rfl⟩ := List.mem_map.mp hp
          exact lineOfSerializable_serializableOfLine _
        have hex : ∃ p ∈ idxs.zip olds, p.1 = k := by
          refine ⟨(k, serializableOfLine (L.getD k dummyLine)), ?_, rfl⟩
          rw [holds, zip_self_map]
          exact List.mem_map.mpr ⟨k, hk, rfl⟩
        rw [setFold_getElem?_mem (fun i => L.getD i dummyLine) _ _ k hdet
          (by rw [setFold_length]; exact hkL) hex]
        rw [List.getD_eq_getElem _ _ hkL, List.getElem?_eq_getElem hkL]
      · have hne1 : ∀ p ∈ idxs.zip olds, p.1 ≠ k := fun p hp hpk =>
          hk (hpk ▸ (List.of_mem_zip hp).1)
        have hne2 : ∀ p ∈ idxs.zip news, p.1 ≠ k := fun p hp hpk =>
          hk (hpk ▸ (List.of_mem_zip hp).1)
        rw [setFold_getElem?_not_mem _ _ k hne1, setFold_getElem?_not_mem _ _ k hne2]
    refine ⟨⟨(idxs.zip news).foldl setStep L, .modify idxs olds news :: us, [], sel⟩,
      ⟨L, us, [.modify idxs olds news], []⟩, ?_, ?_, rfl, rfl, rfl, rfl⟩
    · unfold execute
      rw [happly]
      rfl
    · show (undoApply ((idxs.zip news).foldl setStep L)
          (PaintAction.modify idxs olds news)).map _ = _
      rw [hundoApply]
      rfl
  | move idxs dx dy =>
    obtain ⟨hnd, hex⟩ := h
    have hrestore : idxs.foldl (unmoveStep dx dy) (idxs.foldl (moveStep dx dy) L) = L := by
      rw [moveStep_eq_touchStep, unmoveStep_eq_touchStep]
      apply List.ext_getElem?
      intro k
      by_cases hk : k ∈ idxs
      · rw [touchFold_getElem?_mem _ idxs _ k hnd hk,
          touchFold_getElem?_mem _ idxs L k hnd hk]
        cases hl : L[k]? with
        | none => rfl
        | some l =>
          simp only [Option.map_some']
          congr 1
          unfold translateLine untranslateLine
          simp only [List.map_map]
          obtain ⟨pts, c, w⟩ := l
          simp only [Line.mk.injEq, and_true, true_and]
          refine (List.map_congr_left ?_).trans (List.map_id pts)
          intro p hp
          obtain ⟨hx, hy⟩ := hex k hk ⟨pts, c, w⟩ hl p hp
          simp only [Function.comp_apply, hx, hy]
          rfl
      · rw [touchFold_getElem?_not_mem _ idxs _ k hk,
          touchFold_getElem?_not_mem _ idxs L k hk]
    exact ⟨⟨idxs.foldl (moveStep dx dy) L, .move idxs dx dy :: us, [], sel⟩,
      ⟨L, us, [.move idxs dx dy], []⟩, rfl, by
        unfold undo
        simp only [undoApply, hrestore]
        rfl, rfl, rfl, rfl, rfl⟩

/-- The round-trip driver: run each action through execute() and
immediately through undo(). -/
def executeUndoSeq : PaintApp → List PaintAction → Option PaintApp
  | app, [] => some app
  | app, a :: as =>
    match execute app a with
    | none => none
    | some app₁ =>
      match undo app₁ with
      | none => none
      | some app₂ => executeUndoSeq app₂ as

/-- A concrete one-point stroke at x = 1. -/
def c2Line : Line :=
  ⟨[⟨f32ofInt 1, f32ofInt 0⟩], ⟨255, 0, 0, 128⟩, f32ofInt 4⟩

/-- Counterexample to claim C2 as stated: with one stroke whose point
has x = 1, executing Move with the f32 delta 2 ^ 30 and then undoing
does not restore the stroke list — 1 + 2 ^ 30 rounds to 2 ^ 30 in
binary32, and subtracting the delta leaves x = 0, not 1. -/
theorem C2_counterexample :
    (executeUndoSeq ⟨[c2Line], [], [], []⟩
        [.move [0] (f32ofInt (2 ^ 30)) (f32ofInt 0)]).map PaintApp.lines ≠
      some [c2Line] := by decide

/-- Claim C2 as amended: for any starting state and any finite sequence
of well-formed actions (UndoWF: Delete with strictly ascending in-range
indices and accurate caches, Modify with in-range indices, accurate old
caches and enough new strokes, Move with distinct indices and a delta
whose floating-point addition the subtraction inverts exactly on every
affected coordinate — the rounding condition the counterexample
violates), running every execute() immediately followed by undo()
returns the stroke list to its initial value. -/
theorem C2_execute_undo_roundtrip :
    ∀ (app : PaintApp) (acts : List PaintAction),
      (∀ a ∈ acts, UndoWF app.lines a) →
      ∃ app', executeUndoSeq app acts = some app' ∧ app'.lines = app.lines := by
  intro app acts
  induction acts generalizing app with
  | nil => intro _; exact ⟨app, rfl, rfl⟩
  | cons a as ih =>
    intro h
    obtain ⟨app₁, app₂, he, hu, hlines, _, _, _⟩ :=
      execute_undo_step app a (h a (List.mem_cons_self a as))
    obtain ⟨app', hseq, hl⟩ := ih app₂ fun b hb => by
      rw [hlines]
      exact h b (List.mem_cons_of_mem a hb)
    refine ⟨app', ?_, hl.trans hlines⟩
    show (match execute app a with
      | none => none
      | some app₁ =>
        match undo app₁ with
        | none => none
        | some app₂ => executeUndoSeq app₂ as) = some app'
    rw [he]
    show (match undo app₁ with
      | none => none
      | some app₂ => executeUndoSeq app₂ as) = some app'
    rw [hu]
    exact hseq

/-- Witness for the amended C2 at a concrete store and Move sequence
whose arithmetic is exact. -/
theorem C2_witness :
    ∃ app', executeUndoSeq ⟨[c2Line], [], [], []⟩
        [.move [0] (f32ofInt 1) (f32ofInt 0)] = some app' ∧
      app'.lines = [c2Line] :=
  C2_execute_undo_roundtrip ⟨[c2Line], [], [], []⟩
    [.move [0] (f32ofInt 1) (f32ofInt 0)]
    (by
      intro a ha
      simp only [List.mem_singleton] at ha
      subst ha
      refine ⟨by decide, ?_⟩
      intro k hk l hl p hp
      have hk0 : k = 0 := by simpa using hk
      subst hk0
      rw [List.getElem?_cons_zero] at hl
      injection hl with hl
      subst hl
      have hpts : c2Line.points = [⟨f32ofInt 1, f32ofInt 0⟩] := rfl
      rw [hpts] at hp
      have hp' : p = ⟨f32ofInt 1, f32ofInt 0⟩ := by simpa using hp
      subst hp'
      exact ⟨by decide, by decide⟩)

/-! # Claim C3 -/

/-- Pointwise exactness of the floating-point redo of a Move: re-adding
the delta to an undone coordinate reproduces the translated value.
This fails for some f32 inputs, which the C3 counterexample exhibits. -/
def MoveRedoExact (L : List Line) (idxs : List Nat) (dx dy : F32) : Prop :=
  ∀ k ∈ idxs, ∀ l : Line, L[k]? = some l → ∀ p ∈ l.points,
    F32.add (F32.sub (F32.add p.x dx) dx) dx = F32.add p.x dx ∧
    F32.add (F32.sub (F32.add p.y dy) dy) dy = F32.add p.y dy

/-- The hypotheses the redo-fidelity property needs beyond execute and
undo succeeding: cache lists at least as long as the index list (as the
application always builds them), distinct Move indices, and exact
floating-point redo arithmetic for Move. -/
def RedoWF (L : List Line) : PaintAction → Prop
  | .create _ => True
  | .delete idxs cached => idxs.length ≤ cached.length
  | .modify idxs olds news => idxs.length ≤ news.length ∧ idxs.length ≤ olds.length
  | .move idxs dx dy => idxs.Nodup ∧ MoveRedoExact L idxs dx dy

/-- A concrete one-point stroke at x = -(2 ^ 25 + 4). -/
def c3Line : Line :=
  ⟨[⟨F32.num (-(2 ^ 23 + 1)) 2, f32ofInt 0⟩], ⟨255, 0, 0, 128⟩, f32ofInt 4⟩

/-- Counterexample to claim C3 as stated: with one stroke whose point
has x = -(2 ^ 25 + 4), executing Move with the f32 delta 2, undoing and
redoing does not reproduce the post-execute store: the execute rounds
x + 2 to -2 ^ 25 (tie to even), the undo leaves -2 ^ 25, and the redo
produces -(2 ^ 25 - 2), which is not the post-execute value -2 ^ 25. -/
theorem C3_counterexample :
    ((execute ⟨[c3Line], [], [], []⟩ (.move [0] (f32ofInt 2) (f32ofInt 0))).bind
        (fun app₁ => (undo app₁).bind redo)).map PaintApp.lines ≠
      (execute ⟨[c3Line], [], [], []⟩ (.move [0] (f32ofInt 2) (f32ofInt 0))).map
        PaintApp.lines := by decide

/-- Claim C3 as amended: for every state and action for which execute()
and the following undo() complete without panicking, and which satisfies
RedoWF (caches as long as the index list; Move with distinct indices and
exact redo arithmetic — the rounding condition the counterexample
violates), redo() after undo() reproduces exactly the stroke list and
undo stack that existed right after the execute(), and leaves the redo
stack empty. -/
theorem C3_redo_fidelity :
    ∀ (app : PaintApp) (a : PaintAction) (app₁ app₂ : PaintApp),
      RedoWF app.lines a →
      execute app a = some app₁ → undo app₁ = some app₂ →
      ∃ app₃, redo app₂ = some app₃ ∧ app₃.lines = app₁.lines ∧
        app₃.undoStack = app₁.undoStack ∧ app₃.redoStack = [] := by
  intro app a app₁ app₂ hwf he hu
  obtain ⟨L, us, rs, sel⟩ := app
  cases a with
  | create ls =>
    have he' : (⟨L ++ ls.map lineOfSerializable, .create ls :: us, [], sel⟩ :
        PaintApp) = app₁ := by
      injection he
    subst he'
    have hstep : undo (⟨L ++ ls.map lineOfSerializable, .create ls :: us, [], sel⟩ :
        PaintApp) = some ⟨L, us, [.create ls], []⟩ := by
      unfold undo
      simp only [undoApply]
      rw [show ls.length = (ls.map lineOfSerializable).length from
        (List.length_map _ _).symm, popN_append]
      rfl
    rw [hstep] at hu
    injection hu with hu
    subst hu
    exact ⟨⟨L ++ ls.map lineOfSerializable, .create ls :: us, [], []⟩, rfl, rfl, rfl, rfl⟩
  | delete idxs cached =>
    have hlen : idxs.length ≤ cached.length := hwf
    have he' : (⟨(List.insertionSort (fun a b => b ≤ a) idxs).foldl eraseStep L,
        .delete idxs cached :: us, [], sel⟩ : PaintApp) = app₁ := by
      injection he
    subst he'
    have hu' : (undoApply ((List.insertionSort (fun a b => b ≤ a) idxs).foldl eraseStep L)
        (.delete idxs cached)).map
          (fun ls => (⟨ls, us, .delete idxs cached :: [], []⟩ : PaintApp)) = some app₂ := hu
    obtain ⟨U, hUA, happ2⟩ := Option.map_eq_some'.mp hu'
    have hUA' : (List.insertionSort (fun p q : Nat × SerializableLine => p.1 ≤ q.1)
          (idxs.zip cached)).foldlM
        (fun ls pr => vecInsert pr.1 (lineOfSerializable pr.2) ls)
        ((List.insertionSort (fun a b => b ≤ a) idxs).foldl eraseStep L) = some U := hUA
    have hErase := insert_then_erase _ _ _ hUA'
    have hKey : List.insertionSort (fun a b => b ≤ a) idxs =
        ((List.insertionSort (fun p q : Nat × SerializableLine => p.1 ≤ q.1)
          (idxs.zip cached)).map Prod.fst).reverse := by
      apply List.eq_of_perm_of_sorted (r := fun a b : Nat => b ≤ a)
      · refine (List.perm_insertionSort _ idxs).trans ?_
        refine ((List.reverse_perm _).trans ?_).symm
        refine ((List.perm_insertionSort _ (idxs.zip cached)).map Prod.fst).trans ?_
        rw [List.map_fst_zip _ _ hlen]
      · exact List.sorted_insertionSort _ idxs
      · apply List.pairwise_reverse.mpr
        refine List.Pairwise.map Prod.fst (fun p q h => h) ?_
        exact List.sorted_insertionSort _ (idxs.zip cached)
    subst happ2
    refine ⟨⟨(List.insertionSort (fun a b => b ≤ a) idxs).foldl eraseStep L,
      .delete idxs cached :: us, [], []⟩, ?_, rfl, rfl, rfl⟩
    have hredo : redo (⟨U, us, .delete idxs cached :: [], []⟩ : PaintApp) =
        some ⟨(List.insertionSort (fun a b => b ≤ a) idxs).foldl eraseStep U,
          .delete idxs cached :: us, [], []⟩ := rfl
    rw [hredo, hKey, hErase, ← hKey]
  | modify idxs olds news =>
    obtain ⟨hnews, holds⟩ := hwf
    have happly : applyAction ⟨L, us, rs, sel⟩ (.modify idxs olds news) =
        some ⟨(idxs.zip news).foldl setStep L, us, rs, sel⟩ := by
      simp only [applyAction, List.enum_eq_enumFrom]
      rw [modifyFold_eq_setFold news idxs 0 L (by omega), List.drop_zero]
      rfl
    have he' : (⟨(idxs.zip news).foldl setStep L, .modify idxs olds news :: us, [],
        sel⟩ : PaintApp) = app₁ := by
      have he2 : (applyAction ⟨L, us, rs, sel⟩ (.modify idxs olds news)).map
          (fun app' => (⟨app'.lines, .modify idxs olds news :: app'.undoStack, [],
            app'.selectedIndices⟩ : PaintApp)) = some app₁ := he
      rw [happly] at he2
      injection he2
    subst he'
    have hundoApply : undoApply ((idxs.zip news).foldl setStep L)
        (.modify idxs olds news) =
        some ((idxs.zip olds).foldl setStep ((idxs.zip news).foldl setStep L)) := by
      show idxs.enum.foldlM (modifyStep olds) ((idxs.zip news).foldl setStep L) = _
      rw [List.enum_eq_enumFrom, modifyFold_eq_setFold olds idxs 0 _ (by omega),
        List.drop_zero]
    have hu' : (undoApply ((idxs.zip news).foldl setStep L) (.modify idxs olds news)).map
        (fun ls => (⟨ls, us, .modify idxs olds news :: [], []⟩ : PaintApp)) =
          some app₂ := hu
    rw [hundoApply] at hu'
    injection hu' with hu'
    subst hu'
    have hredoApply : applyAction
        ⟨(idxs.zip olds).foldl setStep ((idxs.zip news).foldl setStep L), us,
          .modify idxs olds news :: [], []⟩ (.modify idxs olds news) =
        some ⟨(idxs.zip news).foldl setStep
            ((idxs.zip olds).foldl setStep ((idxs.zip news).foldl setStep L)), us,
          .modify idxs olds news :: [], []⟩ := by
      simp only [applyAction, List.enum_eq_enumFrom]
      rw [modifyFold_eq_setFold news idxs 0 _ (by omega), List.drop_zero]
      rfl
    have hF : (idxs.zip news).foldl setStep
        ((idxs.zip olds).foldl setStep ((idxs.zip news).foldl setStep L)) =
        (idxs.zip news).foldl setStep L := by
      apply List.ext_getElem?
      intro k
      by_cases hk : k ∈ idxs
      · have hkey : ∃ p ∈ idxs.zip news, p.1 = k := by
          obtain ⟨t, ht, rfl⟩ := List.mem_iff_getElem.mp hk
          have htz : t < (idxs.zip news).length := by
            rw [List.length_zip]
            omega
          exact ⟨(idxs.zip news)[t], List.getElem_mem htz, by rw [List.getElem_zip]⟩
        apply setFold_getElem?_congr
        · rw [setFold_length, setFold_length]
        · exact hkey
      · have hne1 : ∀ p ∈ idxs.zip olds, p.1 ≠ k := fun p hp hpk =>
          hk (hpk ▸ (List.of_mem_zip hp).1)
        have hne2 : ∀ p ∈ idxs.zip news, p.1 ≠ k := fun p hp hpk =>
          hk (hpk ▸ (List.of_mem_zip hp).1)
        rw [setFold_getElem?_not_mem _ _ k hne2, setFold_getElem?_not_mem _ _ k hne1]
    refine ⟨⟨(idxs.zip news).foldl setStep L, .modify idxs olds news :: us, [], []⟩,
      ?_, rfl, rfl, rfl⟩
    show (applyAction ⟨(idxs.zip olds).foldl setStep ((idxs.zip news).foldl setStep L),
        us, .modify idxs olds news :: [], []⟩ (.modify idxs olds news)).map _ = _
    rw [hredoApply]
    simp only [Option.map_some']
    rw [hF]
  | move idxs dx dy =>
    obtain ⟨hnd, hexact⟩ := hwf
    have he' : (⟨idxs.foldl (moveStep dx dy) L, .move idxs dx dy :: us, [], sel⟩ :
        PaintApp) = app₁ := by
      injection he
    subst he'
    have hu' : (⟨idxs.foldl (unmoveStep dx dy) (idxs.foldl (moveStep dx dy) L), us,
        .move idxs dx dy :: [], []⟩ : PaintApp) = app₂ := by
      injection hu
    subst hu'
    have hF : idxs.foldl (moveStep dx dy)
        (idxs.foldl (unmoveStep dx dy) (idxs.foldl (moveStep dx dy) L)) =
        idxs.foldl (moveStep dx dy) L := by
      rw [moveStep_eq_touchStep, unmoveStep_eq_touchStep]
      apply List.ext_getElem?
      intro k
      by_cases hk : k ∈ idxs
      · rw [touchFold_getElem?_mem _ idxs _ k hnd hk,
          touchFold_getElem?_mem _ idxs _ k hnd hk,
          touchFold_getElem?_mem _ idxs L k hnd hk]
        cases hl : L[k]? with
        | none => rfl
        | some l =>
          simp only [Option.map_some']
          congr 1
          unfold translateLine untranslateLine
          obtain ⟨pts, c, w⟩ := l
          simp only [List.map_map, Line.mk.injEq, and_true, true_and]
          apply List.map_congr_left
          intro p hp
          obtain ⟨hx, hy⟩ := hexact k hk ⟨pts, c, w⟩ hl p hp
          simp only [Function.comp_apply, hx, hy]
      · rw [touchFold_getElem?_not_mem _ idxs _ k hk,
          touchFold_getElem?_not_mem _ idxs _ k hk,
          touchFold_getElem?_not_mem _ idxs L k hk]
    refine ⟨⟨idxs.foldl (moveStep dx dy) L, .move idxs dx dy :: us, [], []⟩,
      ?_, rfl, rfl, rfl⟩
    have hredo : redo (⟨idxs.foldl (unmoveStep dx dy) (idxs.foldl (moveStep dx dy) L),
        us, .move idxs dx dy :: [], []⟩ : PaintApp) =
        some ⟨idxs.foldl (moveStep dx dy)
            (idxs.foldl (unmoveStep dx dy) (idxs.foldl (moveStep dx dy) L)),
          .move idxs dx dy :: us, [], []⟩ := rfl
    rw [hredo, hF]

/-- Witness for the amended C3 at a concrete Create action. -/
theorem C3_witness :
    ∃ app₃, redo ⟨[], [], [PaintAction.create [demoSLine]], []⟩ = some app₃ ∧
      app₃.lines = [lineOfSerializable demoSLine] ∧
      app₃.undoStack = [PaintAction.create [demoSLine]] ∧
      app₃.redoStack = [] :=
  C3_redo_fidelity ⟨[], [], [], []⟩ (.create [demoSLine])
    ⟨[lineOfSerializable demoSLine], [PaintAction.create [demoSLine]], [], []⟩
    ⟨[], [], [PaintAction.create [demoSLine]], []⟩
    trivial rfl (by decide)

/-! # Claim C10 -/

theorem eraseIdx_concat (x : Line) :
    ∀ M : List Line, (M ++ [x]).eraseIdx M.length = M := by
  intro M
  induction M with
  | nil => rfl
  | cons a t ih =>
    show (a :: (t ++ [x])).eraseIdx (t.length + 1) = a :: t
    rw [List.eraseIdx_cons_succ, ih]

/-- Erasing every index of the store in descending order empties it. -/
theorem eraseFold_range_reverse :
    ∀ L : List Line, (List.range L.length).reverse.foldl eraseStep L = [] := by
  intro L
  induction L using List.reverseRecOn with
  | nil => rfl
  | append_singleton M x ih =>
    have hlen : (M ++ [x]).length = M.length + 1 := by simp
    rw [hlen, List.range_succ, List.reverse_concat, List.foldl_cons]
    have hstep : eraseStep (M ++ [x]) M.length = M := by
      rw [eraseStep_pos (by simp), eraseIdx_concat]
    rw [hstep]
    exact ih

/-- Reading every index of the store back in order reproduces it. -/
theorem map_getD_range :
    ∀ L : List Line, (List.range L.length).map (fun i => L.getD i dummyLine) = L := by
  intro L
  induction L using List.reverseRecOn with
  | nil => rfl
  | append_singleton M x ih =>
    have hlen : (M ++ [x]).length = M.length + 1 := by simp
    rw [hlen, List.range_succ, List.map_append]
    congr 1
    · refine (List.map_congr_left ?_).trans ih
      intro i hi
      have hiM : i < M.length := List.mem_range.mp hi
      exact List.getD_append M [x] dummyLine i hiM
    · show [(M ++ [x]).getD M.length dummyLine] = [x]
      congr 1
      rw [List.getD_eq_getElem _ _ (by simp)]
      simp


/-- Claim C10: clear_all() on an empty Store is a no-op; on a non-empty
Store it commits, through execute(), one Delete action covering every
index 0..len with every stroke cached, leaving the Store empty, the
selection empty, the redo stack empty and that Delete on top of the
undo stack — and a single undo() restores the entire drawing in its
original order together with the previous undo stack. -/
theorem C10_clear_all (app : PaintApp) :
    (app.lines = [] → clearAll app = some app) ∧
    (app.lines ≠ [] →
      ∃ app', clearAll app = some app' ∧
        app'.lines = [] ∧ app'.selectedIndices = [] ∧ app'.redoStack = [] ∧
        app'.undoStack =
          PaintAction.delete (List.range app.lines.length)
            (app.lines.map serializableOfLine) :: app.undoStack ∧
        ∃ app'', undo app' = some app'' ∧ app''.lines = app.lines ∧
          app''.undoStack = app.undoStack) := by
  obtain ⟨L, us, rs, sel⟩ := app
  constructor
  · intro h
    simp only at h
    subst h
    rfl
  · intro h
    simp only at h
    simp only
    have hne : L.isEmpty = false := by
      cases L with
      | nil => exact absurd rfl h
      | cons a t => rfl
    have hsorted : List.Sorted (· < ·) (List.range L.length) :=
      List.sorted_lt_range L.length
    have hcache : L.map serializableOfLine =
        (List.range L.length).map
          (fun i => serializableOfLine (L.getD i dummyLine)) := by
      conv_lhs => rw [← map_getD_range L]
      rw [List.map_map]
      rfl
    have happly : applyAction ⟨L, us, rs, sel⟩
        (.delete (List.range L.length) (L.map serializableOfLine)) =
        some ⟨[], us, rs, sel⟩ := by
      simp only [applyAction, insertionSortDesc_eq_reverse hsorted,
        eraseFold_range_reverse]
    have hexec : execute ⟨L, us, rs, sel⟩
        (.delete (List.range L.length) (L.map serializableOfLine)) =
        some ⟨[], .delete (List.range L.length) (L.map serializableOfLine) :: us,
          [], sel⟩ := by
      unfold execute
      rw [happly]
      rfl
    have hclear : clearAll ⟨L, us, rs, sel⟩ =
        some ⟨[], .delete (List.range L.length) (L.map serializableOfLine) :: us,
          [], []⟩ := by
      unfold clearAll
      simp only [hne, Bool.false_eq_true, if_false]
      rw [hexec]
      rfl
    have hundoApply : undoApply []
        (.delete (List.range L.length) (L.map serializableOfLine)) = some L := by
      show (List.insertionSort _ ((List.range L.length).zip
          (L.map serializableOfLine))).foldlM _ _ = some L
      rw [hcache, (sorted_zip_of_sorted_lt hsorted).insertionSort_eq]
      have := erase_then_insert (List.range L.length) L hsorted
        (fun i hi => List.mem_range.mp hi)
      rw [eraseFold_range_reverse] at this
      exact this
    refine ⟨_, hclear, rfl, rfl, rfl, rfl, ⟨L, us,
      [.delete (List.range L.length) (L.map serializableOfLine)], []⟩, ?_, rfl, rfl⟩
    unfold undo
    simp only
    rw [hundoApply]
    rfl

/-- Witness for C10 at a concrete one-stroke store. -/
theorem C10_witness :
    ∃ app', clearAll ⟨[demoRedLine], [], [], [0]⟩ = some app' ∧
      app'.lines = [] ∧ app'.selectedIndices = [] ∧ app'.redoStack = [] ∧
      app'.undoStack =
        PaintAction.delete (List.range 1) ([demoRedLine].map serializableOfLine) :: [] ∧
      ∃ app'', undo app' = some app'' ∧ app''.lines = [demoRedLine] ∧
        app''.undoStack = [] :=
  (C10_clear_all ⟨[demoRedLine], [], [], [0]⟩).2 (by simp)
